import Mathlib

/-!
Verification of the core of `Code/skeletonHarmony.py` (When-in-Rome).

Strings are modelled as `List Char`; Python `str.replace` is modelled by
`replaceStr` below (left-to-right, non-overlapping replacement).  Rational
numbers stand in for Python numeric beat values.  External music21
capabilities (Roman-numeral derivation, local-key resolution, the
RepeatFinder similarity source, score parsing) are parameters or inputs of
the corresponding definitions, exactly as the spec designates them as
external collaborators.
-/

/-- Fuel-indexed worker for `replaceStr`.  The fuel always starts at the
length of the string; because the pattern is nonempty, each step consumes at
least one input character, so one unit of fuel per character suffices. -/
def replaceStrAux (p r : List Char) : Nat → List Char → List Char
  | _, [] => []
  | 0, _ => []
  | n + 1, c :: t =>
    if p.isPrefixOf (c :: t) then
      r ++ replaceStrAux p r n (List.drop (p.length - 1) t)
    else
      c :: replaceStrAux p r n t

/-- Model of Python `str.replace(p, r)`: replace non-overlapping occurrences
of `p` left to right.  (Python replace with an empty pattern is never used by
the source; we make it the identity.) -/
def replaceStr (p r l : List Char) : List Char :=
  if p.isEmpty then l else replaceStrAux p r l.length l

/-- Model of the Python substring test `p in s`. -/
def hasSub (p : List Char) : List Char → Bool
  | [] => p.isEmpty
  | c :: t => p.isPrefixOf (c :: t) || hasSub p t

theorem replaceStrAux_fuel_irrel (p r : List Char) :
    ∀ (n m : Nat) (l : List Char), l.length ≤ n → l.length ≤ m →
      replaceStrAux p r n l = replaceStrAux p r m l := by
  intro n
  induction n with
  | zero =>
    intro m l hn _
    have hl : l = [] := List.length_eq_zero.mp (Nat.le_zero.mp hn)
    subst hl
    cases m <;> rfl
  | succ n ih =>
    intro m l hn hm
    cases l with
    | nil => cases m <;> rfl
    | cons c t =>
      cases m with
      | zero => exact absurd hm (by simp)
      | succ m =>
        have ht : t.length ≤ n := by
          have := hn; simp only [List.length_cons] at this; omega
        have htm : t.length ≤ m := by
          have := hm; simp only [List.length_cons] at this; omega
        simp only [replaceStrAux]
        by_cases hp : p.isPrefixOf (c :: t) = true
        · simp only [hp, if_true]
          have hdrop : (List.drop (p.length - 1) t).length ≤ t.length := by
            simp
          exact congrArg (r ++ ·) (ih m _ (le_trans hdrop ht) (le_trans hdrop htm))
        · simp only [hp, if_false, Bool.false_eq_true]
          exact congrArg (c :: ·) (ih m t ht htm)

theorem replaceStr_nil (p r : List Char) : replaceStr p r [] = [] := by
  unfold replaceStr
  by_cases h : p.isEmpty <;> simp [h, replaceStrAux]

theorem replaceStr_cons_pos (p r : List Char) (c : Char) (t : List Char)
    (hp : p ≠ []) (h : p.isPrefixOf (c :: t) = true) :
    replaceStr p r (c :: t) = r ++ replaceStr p r (List.drop (p.length - 1) t) := by
  have hpe : p.isEmpty = false := by
    cases p with
    | nil => exact absurd rfl hp
    | cons a b => rfl
  unfold replaceStr
  simp only [hpe, Bool.false_eq_true, if_false]
  simp only [List.length_cons, replaceStrAux, h, if_true]
  refine congrArg (r ++ ·) ?_
  exact replaceStrAux_fuel_irrel p r t.length _ _ (by simp) (le_refl _)

theorem replaceStr_cons_neg (p r : List Char) (c : Char) (t : List Char)
    (h : p.isPrefixOf (c :: t) = false) :
    replaceStr p r (c :: t) = c :: replaceStr p r t := by
  have hpe : p.isEmpty = false := by
    cases p with
    | nil => simp [List.isPrefixOf] at h
    | cons a b => rfl
  unfold replaceStr
  simp only [hpe, Bool.false_eq_true, if_false]
  simp only [List.length_cons, replaceStrAux, h, Bool.false_eq_true, if_false]

theorem replaceStr_single (c : Char) (r : List Char) (l : List Char) :
    replaceStr [c] r l = l.flatMap (fun a => if a = c then r else [a]) := by
  induction l with
  | nil => simp [replaceStr_nil]
  | cons a t ih =>
    by_cases h : a = c
    · subst h
      have hpre : [a].isPrefixOf (a :: t) = true := by
        simp [List.isPrefixOf]
      rw [replaceStr_cons_pos [a] r a t (by simp) hpre]
      simp [ih]
    · have hpre : [c].isPrefixOf (a :: t) = false := by
        simp [List.isPrefixOf]
        exact fun hca => absurd hca.symm h
      rw [replaceStr_cons_neg [c] r a t hpre]
      simp [ih, h]

theorem replaceStr_of_hasSub_eq_false (p r : List Char) (l : List Char)
    (h : hasSub p l = false) : replaceStr p r l = l := by
  induction l with
  | nil => exact replaceStr_nil p r
  | cons c t ih =>
    simp only [hasSub, Bool.or_eq_false_iff] at h
    rw [replaceStr_cons_neg p r c t h.1, ih h.2]

theorem hasSub_single_eq_false (c : Char) (l : List Char)
    (h : ∀ a ∈ l, a ≠ c) : hasSub [c] l = false := by
  induction l with
  | nil => rfl
  | cons a t ih =>
    have ha : a ≠ c := h a (by simp)
    simp only [hasSub, Bool.or_eq_false_iff]
    constructor
    · simp [List.isPrefixOf]
      exact fun hca => absurd hca.symm ha
    · exact ih (fun b hb => h b (by simp [hb]))

-- ------------------------------------------------------------------------
-- fixTextRn (source lines 549-595)

/-- The allow-list of `fixTextRn` (source lines 573-581), duplicates kept. -/
def legalCharacters : List Char :=
  ['#', 'b', '-',
   '+', 'o', 'ø',
   ':', '[', ']', '/',
   'a', 'b', 'c', 'd', 'e', 'f', 'g',
   'i', 'v',
   'n',
   '1', '2', '3', '4', '5', '6', '7', '8', '9']

/-- Model of Python `str.lower` restricted to what the allow-list test can
observe: ASCII uppercase letters map to lowercase, `Ø` maps to `ø` (the one
non-ASCII character whose Python lowercase form is in the allow-list); every
other character is left unchanged, which agrees with Python on the
membership test against `legalCharacters`. -/
def pyLower (c : Char) : Char :=
  if 'A' ≤ c ∧ c ≤ 'Z' then Char.ofNat (c.toNat + 32)
  else if c = 'Ø' then 'ø'
  else c

/-- The test `char.lower() not in legalCharacters` (source line 589), in
positive form. -/
def isLegalChar (c : Char) : Bool := legalCharacters.contains (pyLower c)

/-- Python `textRn.replace(char, "")` for a single character. -/
def pyRemoveChar (c : Char) (l : List Char) : List Char := replaceStr [c] [] l

/-- One guarded swap of the loop over `swapDict` (source lines 584-586):
`if k in textRn: textRn = textRn.replace(k, swapDict[k])`. -/
def swapIfPresent (p r t : List Char) : List Char :=
  if hasSub p t then replaceStr p r t else t

/-- The `swapDict` pass of `fixTextRn` in dict insertion order:
`/o` to `ø`, `°` to `o`, `(` to `[`, `)` to `]` (source lines 567-586). -/
def swapStage (t : List Char) : List Char :=
  swapIfPresent [')'] [']']
    (swapIfPresent ['('] ['[']
      (swapIfPresent ['°'] ['o']
        (swapIfPresent ['/', 'o'] ['ø'] t)))

/-- The removal loop of `fixTextRn` (source lines 588-590): iterate over the
characters of the post-swap string, removing every occurrence of each
character whose lowercase form is not in the allow-list.  The iteration is
over the snapshot taken at loop entry, as in Python. -/
def removeStage (t : List Char) : List Char :=
  t.foldl (fun acc c => if isLegalChar c then acc else pyRemoveChar c acc) t

/-- The colon-spacing pass `textRn.replace(":", ": ")` (source line 593). -/
def colonStage (t : List Char) : List Char := replaceStr [':'] [':', ' '] t

/-- Model of `fixTextRn` (source lines 549-595): swaps, then removal of
illegal characters, then colon spacing. -/
def fixTextRn (textRn : List Char) : List Char :=
  colonStage (removeStage (swapStage textRn))

-- Sanity checks, mirroring Test.testFixTextRn (source lines 709-726).

theorem fixTextRn_test_excess_spaces :
    fixTextRn "e:   viio6".toList = "e: viio6".toList := by decide

theorem fixTextRn_test_missing_space :
    fixTextRn "f:i".toList = "f: i".toList := by decide

theorem fixTextRn_test_unchanged :
    fixTextRn "F: I6".toList = "F: I6".toList := by decide

theorem fixTextRn_test_halfDim :
    fixTextRn "F: vii/o6".toList = "F: viiø6".toList := by decide

theorem fixTextRn_test_degree_sign :
    fixTextRn "ii°6".toList = "iio6".toList := by decide

-- ------------------------------------------------------------------------
-- Characterisations of the three stages of fixTextRn

/-- The element-wise effect of the colon-spacing pass. -/
def colonSub (a : Char) : List Char := if a = ':' then [':', ' '] else [a]

theorem colonStage_eq (t : List Char) : colonStage t = t.flatMap colonSub := by
  unfold colonStage colonSub
  exact replaceStr_single ':' [':', ' '] t

theorem pyRemoveChar_eq (c : Char) (l : List Char) :
    pyRemoveChar c l = l.filter (fun a => decide (a ≠ c)) := by
  unfold pyRemoveChar
  rw [replaceStr_single]
  induction l with
  | nil => rfl
  | cons a t ih =>
    by_cases h : a = c <;> simp [List.filter_cons, h, ih]

theorem foldl_remove (pB : Char → Bool) :
    ∀ (cs acc : List Char),
      cs.foldl (fun acc2 c => if pB c then acc2 else acc2.filter (fun a => decide (a ≠ c))) acc
        = acc.filter (fun a => pB a || !(decide (a ∈ cs))) := by
  intro cs
  induction cs with
  | nil => intro acc; simp
  | cons c cs ih =>
    intro acc
    simp only [List.foldl_cons]
    rw [ih]
    by_cases hc : pB c = true
    · simp only [hc, if_true]
      refine List.filter_congr ?_
      intro a _
      by_cases hac : a = c
      · subst hac; simp [hc]
      · simp [List.mem_cons, hac]
    · simp only [hc, Bool.false_eq_true, if_false]
      rw [List.filter_filter]
      refine List.filter_congr ?_
      intro a _
      by_cases hac : a = c
      · subst hac; simp [hc]
      · simp [List.mem_cons, hac]

theorem removeStage_eq (t : List Char) : removeStage t = t.filter isLegalChar := by
  unfold removeStage
  have h1 : (fun (acc : List Char) (c : Char) =>
      if isLegalChar c then acc else pyRemoveChar c acc)
      = fun acc2 c => if isLegalChar c then acc2 else acc2.filter (fun a => decide (a ≠ c)) := by
    funext acc c
    by_cases h : isLegalChar c <;> simp [h, pyRemoveChar_eq]
  rw [h1, foldl_remove]
  refine List.filter_congr ?_
  intro a ha
  simp [ha]

theorem fixTextRn_eq (x : List Char) :
    fixTextRn x = ((swapStage x).filter isLegalChar).flatMap colonSub := by
  unfold fixTextRn
  rw [colonStage_eq, removeStage_eq]

-- ------------------------------------------------------------------------
-- Output predicates for the canonicalizer guarantee (claim C2)

/-- True when the first character of the list, if any, is not a space. -/
def headNoSpace : List Char → Bool
  | [] => true
  | d :: _ => decide (d ≠ ' ')

/-- Every colon is immediately followed by exactly one space: after a colon
there must be a space, and the character after that space (if any) must not
be another space. -/
def colonOk : List Char → Bool
  | [] => true
  | c :: tail =>
    if c = ':' then
      match tail with
      | [] => false
      | d :: rest => if d = ' ' then headNoSpace rest && colonOk rest else false
    else colonOk tail

/-- Every space is immediately preceded by a colon (`prev` is the preceding
character). -/
def spaceChainOk (prev : Char) : List Char → Bool
  | [] => true
  | d :: t => (decide (d ≠ ' ') || decide (prev = ':')) && spaceChainOk d t

/-- No stray spaces: the string does not start with a space, and every space
is immediately preceded by a colon. -/
def noStraySpaces : List Char → Bool
  | [] => true
  | c :: t => decide (c ≠ ' ') && spaceChainOk c t

theorem mem_colonSub (a b : Char) (h : a ∈ colonSub b) : a = b ∨ a = ' ' := by
  unfold colonSub at h
  by_cases hb : b = ':'
  · subst hb
    simp at h
    rcases h with h | h
    · exact Or.inl h
    · exact Or.inr h
  · simp [hb] at h
    exact Or.inl h

theorem fixTextRn_chars (x : List Char) :
    ∀ a ∈ fixTextRn x, isLegalChar a = true ∨ a = ' ' := by
  rw [fixTextRn_eq]
  intro a ha
  rcases List.mem_flatMap.mp ha with ⟨b, hb, hab⟩
  have hbl : isLegalChar b = true := (List.mem_filter.mp hb).2
  rcases mem_colonSub a b hab with h | h
  · subst h; exact Or.inl hbl
  · exact Or.inr h

theorem headNoSpace_flatMap (t : List Char) (h : ∀ a ∈ t, a ≠ ' ') :
    headNoSpace (t.flatMap colonSub) = true := by
  cases t with
  | nil => rfl
  | cons b rest =>
    have hb : b ≠ ' ' := h b (by simp)
    by_cases hbc : b = ':'
    · subst hbc; simp [colonSub, headNoSpace]
    · simp [colonSub, hbc, headNoSpace, hb]

theorem flatMap_colonSub_cons_colon (rest : List Char) :
    (':' :: rest).flatMap colonSub = ':' :: ' ' :: rest.flatMap colonSub := by
  simp [colonSub]

theorem flatMap_colonSub_cons_other (b : Char) (rest : List Char) (hb : b ≠ ':') :
    (b :: rest).flatMap colonSub = b :: rest.flatMap colonSub := by
  simp [colonSub, hb]

theorem colonOk_cons_other (b : Char) (w : List Char) (hbc : ¬ b = ':') :
    colonOk (b :: w) = colonOk w := by
  conv_lhs => rw [colonOk.eq_def]
  simp [hbc]

theorem colonOk_colon_space (w : List Char) :
    colonOk (':' :: ' ' :: w) = (headNoSpace w && colonOk w) := by
  conv_lhs => rw [colonOk.eq_def]
  simp

theorem colonOk_flatMap (t : List Char) (h : ∀ a ∈ t, a ≠ ' ') :
    colonOk (t.flatMap colonSub) = true := by
  induction t with
  | nil => rfl
  | cons b rest ih =>
    have hrest : ∀ a ∈ rest, a ≠ ' ' := fun a ha => h a (by simp [ha])
    by_cases hbc : b = ':'
    · subst hbc
      rw [flatMap_colonSub_cons_colon, colonOk_colon_space,
        headNoSpace_flatMap rest hrest, ih hrest]
      rfl
    · rw [flatMap_colonSub_cons_other b rest hbc, colonOk_cons_other b _ hbc]
      exact ih hrest

theorem spaceChainOk_flatMap (t : List Char) (h : ∀ a ∈ t, a ≠ ' ') :
    ∀ prev, spaceChainOk prev (t.flatMap colonSub) = true := by
  induction t with
  | nil => intro prev; rfl
  | cons b rest ih =>
    intro prev
    have hb : b ≠ ' ' := h b (by simp)
    have hrest : ∀ a ∈ rest, a ≠ ' ' := fun a ha => h a (by simp [ha])
    by_cases hbc : b = ':'
    · subst hbc
      rw [flatMap_colonSub_cons_colon]
      simp only [spaceChainOk]
      rw [ih hrest ' ']
      simp
    · rw [flatMap_colonSub_cons_other b rest hbc]
      simp only [spaceChainOk]
      rw [ih hrest b]
      simp [hb]

theorem noStraySpaces_flatMap (t : List Char) (h : ∀ a ∈ t, a ≠ ' ') :
    noStraySpaces (t.flatMap colonSub) = true := by
  cases t with
  | nil => rfl
  | cons b rest =>
    have hb : b ≠ ' ' := h b (by simp)
    have hrest : ∀ a ∈ rest, a ≠ ' ' := fun a ha => h a (by simp [ha])
    by_cases hbc : b = ':'
    · subst hbc
      rw [flatMap_colonSub_cons_colon]
      simp only [noStraySpaces, spaceChainOk]
      rw [spaceChainOk_flatMap rest hrest ' ']
      simp
    · rw [flatMap_colonSub_cons_other b rest hbc]
      simp only [noStraySpaces]
      rw [spaceChainOk_flatMap rest hrest b]
      simp [hb]

theorem space_not_legal : isLegalChar ' ' = false := by decide

/-- C2: for every input, every character of the output passes the
(case-insensitive) allow-list test or is a space; every colon is followed by
exactly one space; and every space is one inserted after a colon. -/
theorem fixTextRn_output_guarantee (x : List Char) :
    ((fixTextRn x).all fun a => isLegalChar a || decide (a = ' ')) = true ∧
      colonOk (fixTextRn x) = true ∧ noStraySpaces (fixTextRn x) = true := by
  have hz : ∀ a ∈ (swapStage x).filter isLegalChar, a ≠ ' ' := by
    intro a ha hsp
    subst hsp
    have := (List.mem_filter.mp ha).2
    rw [space_not_legal] at this
    exact absurd this (by simp)
  refine ⟨?_, ?_, ?_⟩
  · rw [List.all_eq_true]
    intro a ha
    rcases fixTextRn_chars x a ha with h | h
    · simp [h]
    · simp [h]
  · rw [fixTextRn_eq]
    exact colonOk_flatMap _ hz
  · rw [fixTextRn_eq]
    exact noStraySpaces_flatMap _ hz

-- ------------------------------------------------------------------------
-- Idempotence of fixTextRn (claim C1)

theorem filter_legal_flatMap_colonSub (z : List Char) :
    ((z.flatMap colonSub).filter isLegalChar) = z.filter isLegalChar := by
  induction z with
  | nil => rfl
  | cons b rest ih =>
    by_cases hbc : b = ':'
    · subst hbc
      rw [flatMap_colonSub_cons_colon]
      simp only [List.filter_cons]
      rw [space_not_legal]
      simp only [Bool.false_eq_true, if_false]
      rw [ih]
    · rw [flatMap_colonSub_cons_other b rest hbc]
      simp only [List.filter_cons]
      rw [ih]

theorem filter_legal_idem (w : List Char) :
    ((w.filter isLegalChar).filter isLegalChar) = w.filter isLegalChar := by
  rw [List.filter_filter]
  refine List.filter_congr ?_
  intro a _
  exact Bool.and_self (isLegalChar a)

theorem swapStage_of_canonical (y : List Char)
    (hchars : ∀ a ∈ y, isLegalChar a = true ∨ a = ' ')
    (hso : hasSub ['/', 'o'] y = false) : swapStage y = y := by
  have hnot : ∀ (c : Char), isLegalChar c = false → c ≠ ' ' → hasSub [c] y = false := by
    intro c hcl hcs
    refine hasSub_single_eq_false c y ?_
    intro a ha hac
    subst hac
    rcases hchars a ha with h | h
    · rw [h] at hcl; exact absurd hcl (by simp)
    · exact hcs h
  unfold swapStage swapIfPresent
  rw [hso]
  simp only [Bool.false_eq_true, if_false]
  rw [hnot '°' (by decide) (by decide)]
  simp only [Bool.false_eq_true, if_false]
  rw [hnot '(' (by decide) (by decide)]
  simp only [Bool.false_eq_true, if_false]
  rw [hnot ')' (by decide) (by decide)]
  simp only [Bool.false_eq_true, if_false]

/-- C1 counterexample: `fixTextRn` is not idempotent.  On the input `/°` the
degree-sign swap produces `/o`, which a second application swaps to `ø`. -/
theorem fixTextRn_not_idempotent :
    fixTextRn ['/', '°'] = ['/', 'o'] ∧
      fixTextRn (fixTextRn ['/', '°']) = ['ø'] ∧
      fixTextRn (fixTextRn ['/', '°']) ≠ fixTextRn ['/', '°'] := by
  refine ⟨by decide, by decide, by decide⟩

/-- C1 (amended): `fixTextRn` is idempotent on every input whose
canonicalized form does not contain the substring `/o`; on such outputs the
swap table, the removal loop and the colon-spacing pass are all no-ops up to
re-insertion of the colon spaces. -/
theorem fixTextRn_idempotent_of_no_slash_o (x : List Char)
    (h : hasSub ['/', 'o'] (fixTextRn x) = false) :
    fixTextRn (fixTextRn x) = fixTextRn x := by
  have hchars := fixTextRn_chars x
  have hswap : swapStage (fixTextRn x) = fixTextRn x :=
    swapStage_of_canonical _ hchars h
  show colonStage (removeStage (swapStage (fixTextRn x))) = fixTextRn x
  rw [hswap]
  rw [removeStage_eq]
  conv_lhs => rw [fixTextRn_eq]
  rw [filter_legal_flatMap_colonSub, filter_legal_idem]
  rw [fixTextRn_eq, colonStage_eq]

/-- Witness for the amended C1 theorem at the concrete input `f:i`. -/
theorem fixTextRn_idempotent_witness :
    hasSub ['/', 'o'] (fixTextRn ['f', ':', 'i']) = false ∧
      fixTextRn (fixTextRn ['f', ':', 'i']) = fixTextRn ['f', ':', 'i'] :=
  ⟨by decide, fixTextRn_idempotent_of_no_slash_o ['f', ':', 'i'] (by decide)⟩


-- ------------------------------------------------------------------------
-- intBeat (source lines 619-637) and its rendering via str() (line 614)

/-- A Python number as returned by `intBeat`: either an `int` or a `float`.
Floats that `intBeat` can return are decimal roundings of rationals, so they
are represented exactly by a rational. -/
inductive PyNum where
  | pint (z : Int)
  | pfloat (q : Rat)
deriving DecidableEq

/-- Round-half-to-even of the fraction `N / D` (with `D > 0`), as Python's
builtin `round` computes it on the exactly representable values `intBeat`
deals with.  `f` is the floor of the quotient and `2 * (N - f * D)` is
compared with `D` to classify the fractional part against one half. -/
def roundHalfEvenInt (N D : Int) : Int :=
  if 2 * (N - N.ediv D * D) < D then N.ediv D
  else if D < 2 * (N - N.ediv D * D) then N.ediv D + 1
  else if N.ediv D % 2 = 0 then N.ediv D else N.ediv D + 1

/-- Python `round(q, n)`: round to `n` decimal digits, ties to even. -/
def pyRound (q : Rat) (n : Nat) : Rat :=
  mkRat (roundHalfEvenInt (q.num * 10 ^ n) (q.den : Int)) (10 ^ n)

/-- Model of `intBeat` (source lines 619-637).  The accepted input types
(str, int, float, Fraction) are all funnelled into one rational argument;
`int(beat) == beat` holds exactly when the rational is an integer, in which
case `int(beat)` is its numerator.  `roundValue` defaults to 2 in the
source. -/
def intBeat (beat : Rat) (roundValue : Nat) : PyNum :=
  if beat.den = 1 then .pint beat.num
  else .pfloat (pyRound beat roundValue)

/-- Decimal digits of the fraction `m / D` (where `0 ≤ m < D`), most
significant first, produced by long division, `fuel` digits. -/
def fracDigitsInt : Nat → Int → Int → List Nat
  | 0, _, _ => []
  | k + 1, m, D => ((10 * m).ediv D).toNat :: fracDigitsInt k ((10 * m).emod D) D

/-- Drop trailing zero digits. -/
def trimZeros (l : List Nat) : List Nat :=
  (l.reverse.dropWhile (fun d => d == 0)).reverse

/-- Python `repr` of a nonnegative float holding the exact decimal `N / D`
with at most `prec` fractional digits: integer part, a dot, then the
fractional digits with trailing zeros trimmed but at least one digit kept. -/
def floatReprNN (prec : Nat) (N D : Int) : String :=
  let ip := (N.ediv D).toNat
  let ds := trimZeros (fracDigitsInt prec (N.emod D) D)
  let ds2 := if ds.isEmpty then [0] else ds
  toString ip ++ "." ++ ds2.foldl (fun s d => s ++ toString d) ""

/-- Python `repr` of a float holding an exact decimal. -/
def floatRepr (prec : Nat) (q : Rat) : String :=
  if q.num < 0 then "-" ++ floatReprNN prec (-q.num) (q.den : Int)
  else floatReprNN prec q.num (q.den : Int)

/-- Python `str` applied to the result of `intBeat`, as done by `rnString`
(source line 614: `str(bt)`). -/
def pyStr (prec : Nat) : PyNum → String
  | .pint z => toString z
  | .pfloat q => floatRepr prec q

/-- Rendering of a beat: `str(intBeat(beat, roundValue))`. -/
def render (beat : Rat) (roundValue : Nat) : String :=
  pyStr roundValue (intBeat beat roundValue)

theorem roundHalfEvenInt_close (N D : Int) (hD : 0 < D) :
    |(roundHalfEvenInt N D : Rat) - (N : Rat) / (D : Rat)| ≤ 1 / 2 := by
  unfold roundHalfEvenInt
  have hDne : D ≠ 0 := ne_of_gt hD
  have hsum : D * N.ediv D + N.emod D = N := Int.ediv_add_emod N D
  have hm0 : (0 : Int) ≤ N.emod D := Int.emod_nonneg N hDne
  have hmD : N.emod D < D := Int.emod_lt_of_pos N hD
  have hDq : (0 : Rat) < (D : Rat) := by exact_mod_cast hD
  have hcast : (D : Rat) * (N.ediv D : Rat) + (N.emod D : Rat) = (N : Rat) := by
    exact_mod_cast hsum
  have hrepr : (N : Rat) / (D : Rat) = (N.ediv D : Rat) + (N.emod D : Rat) / (D : Rat) := by
    field_simp
    linarith [hcast]
  have hr2 : N - N.ediv D * D = N.emod D := by linarith [hsum]
  rw [hr2, hrepr]
  set f := N.ediv D with hf
  set m := N.emod D with hmdef
  have hmq0 : (0 : Rat) ≤ (m : Rat) := by exact_mod_cast hm0
  have hmqD : (m : Rat) < (D : Rat) := by exact_mod_cast hmD
  by_cases h1 : 2 * m < D
  · have h1q : 2 * (m : Rat) < (D : Rat) := by exact_mod_cast h1
    simp only [h1, if_true]
    have hfrac0 : (0 : Rat) ≤ (m : Rat) / (D : Rat) := div_nonneg hmq0 (le_of_lt hDq)
    have hfrac : (m : Rat) / (D : Rat) < 1 / 2 := by
      rw [div_lt_div_iff hDq (by norm_num)]
      linarith
    rw [abs_le]
    constructor <;> linarith
  · by_cases h2 : D < 2 * m
    · have h2q : (D : Rat) < 2 * (m : Rat) := by exact_mod_cast h2
      simp only [h1, h2, if_true, if_false]
      push_cast
      rw [abs_le]
      have hlow : 1 / 2 < (m : Rat) / (D : Rat) := by
        rw [lt_div_iff hDq]
        linarith
      have hhigh : (m : Rat) / (D : Rat) < 1 := by
        rw [div_lt_one hDq]
        linarith
      constructor <;> linarith
    · have heq : 2 * m = D := le_antisymm (not_lt.mp h2) (not_lt.mp h1)
      have heqq : (m : Rat) / (D : Rat) = 1 / 2 := by
        have hDq2 : (D : Rat) = 2 * (m : Rat) := by exact_mod_cast heq.symm
        rw [hDq2]
        rw [div_eq_iff (by rw [← hDq2]; exact ne_of_gt hDq)]
        ring
      by_cases hpar : f % 2 = 0
      · simp only [h1, h2, hpar, if_true, if_false]
        rw [heqq, abs_le]
        constructor <;> linarith
      · simp only [h1, h2, hpar, if_true, if_false]
        push_cast
        rw [heqq, abs_le]
        constructor <;> linarith

theorem pyRound_close (q : Rat) (n : Nat) :
    |pyRound q n - q| ≤ 1 / (2 * 10 ^ n) := by
  unfold pyRound
  have hD : (0 : Int) < (q.den : Int) := by exact_mod_cast q.den_pos
  have key := roundHalfEvenInt_close (q.num * 10 ^ n) (q.den : Int) hD
  have hnd : ((q.num : Rat)) / ((q.den : Rat)) = q := Rat.num_div_den q
  have hq : ((q.num * 10 ^ n : Int) : Rat) / ((q.den : Int) : Rat) = q * 10 ^ n := by
    push_cast
    rw [mul_comm ((q.num : Rat)) ((10 : Rat) ^ n), mul_div_assoc, hnd, mul_comm]
  rw [hq] at key
  rw [Rat.mkRat_eq_div]
  have hpow2 : ((10 ^ n : Nat) : Rat) = (10 : Rat) ^ n := by push_cast; rfl
  rw [hpow2]
  have hpow : (0 : Rat) < (10 : Rat) ^ n := by positivity
  set R := roundHalfEvenInt (q.num * 10 ^ n) (q.den : Int) with hR
  have hdiff : (R : Rat) / (10 : Rat) ^ n - q
      = ((R : Rat) - q * (10 : Rat) ^ n) / (10 : Rat) ^ n := by
    field_simp
    ring
  rw [hdiff, abs_div, abs_of_pos hpow, div_le_div_iff hpow (by positivity)]
  calc |(R : Rat) - q * (10 : Rat) ^ n| * (2 * 10 ^ n)
      ≤ (1 / 2) * (2 * 10 ^ n) := by
        apply mul_le_mul_of_nonneg_right key
        positivity
    _ = 1 * 10 ^ n := by ring

/-- C8: beat rendering.  A whole-number beat is rendered as a bare integer;
a fractional beat is rendered from its decimal rounding at the configured
precision (default 2 in the source), and the rounded value is within half a
unit of the last rendered digit of the true beat.  The four renderings named
by the spec hold (the beat values are written with `mkRat`;
`mkRat a b = a / b` as rationals). -/
theorem intBeat_rendering :
    (∀ q : Rat, q.den = 1 → render q 2 = toString q.num) ∧
      (∀ (q : Rat) (n : Nat), q.den ≠ 1 →
        intBeat q n = .pfloat (pyRound q n) ∧ |pyRound q n - q| ≤ 1 / (2 * 10 ^ n)) ∧
      (mkRat 3 2 : Rat) = 3 / 2 ∧
      (mkRat 111111111 100000000 : Rat) = 111111111 / 100000000 ∧
      (mkRat 8 3 : Rat) = 8 / 3 ∧
      render 1 2 = "1" ∧
      render (mkRat 3 2) 2 = "1.5" ∧
      render (mkRat 111111111 100000000) 2 = "1.11" ∧
      render (mkRat 8 3) 2 = "2.67" := by
  refine ⟨?_, ?_, Rat.mkRat_eq_div 3 2, Rat.mkRat_eq_div 111111111 100000000,
    Rat.mkRat_eq_div 8 3, by decide, by decide, by decide, by decide⟩
  · intro q hq
    simp [render, intBeat, hq, pyStr]
  · intro q n hq
    exact ⟨by simp [intBeat, hq], pyRound_close q n⟩

/-- Witness for the hypotheses of `intBeat_rendering` at concrete inputs. -/
theorem intBeat_rendering_witness :
    ((5 : Rat).den = 1 ∧ render 5 2 = toString (5 : Rat).num) ∧
      ((mkRat 3 2).den ≠ 1 ∧
        intBeat (mkRat 3 2) 2 = .pfloat (pyRound (mkRat 3 2) 2) ∧
        |pyRound (mkRat 3 2) 2 - mkRat 3 2| ≤ 1 / (2 * 10 ^ 2)) :=
  ⟨⟨by decide, intBeat_rendering.1 5 (by decide)⟩,
   ⟨by decide, intBeat_rendering.2.1 (mkRat 3 2) 2 (by decide)⟩⟩

-- ------------------------------------------------------------------------
-- getRepeats (source lines 362-400): the measureRangeEqualities dict

/-- A similar-measure group as supplied by music21's RepeatFinder (external
collaborator): `earlier` is `rangeComp[0]`, `later` is `rangeComp[1]`, each
a list of contiguous measure numbers.  The upstream source never supplies
empty groups; head and last are read with default 0. -/
structure SimGroup where
  earlier : List Int
  later : List Int
deriving DecidableEq

/-- A measure-range equality entry: the 4-list
`[targetStart, targetEnd, sourceStart, sourceEnd]` built at source line
399. -/
structure RRange where
  targetStart : Int
  targetEnd : Int
  sourceStart : Int
  sourceEnd : Int
deriving DecidableEq

/-- The `simplified` 4-list of source line 399:
`[rangeComp[1][0], rangeComp[1][-1], rangeComp[0][0], rangeComp[0][-1]]`. -/
def simplifyGroup (g : SimGroup) : RRange :=
  { targetStart := g.later.headD 0
    targetEnd := g.later.getLastD 0
    sourceStart := g.earlier.headD 0
    sourceEnd := g.earlier.getLastD 0 }

/-- Python dict assignment `d[k] = v`: overwrite in place if the key is
present (keeping its position), else append the new binding. -/
def dictInsert (k : Int) (v : α) (d : List (Int × α)) : List (Int × α) :=
  if d.any (fun p => p.1 = k) then
    d.map (fun p => if p.1 = k then (k, v) else p)
  else d ++ [(k, v)]

/-- Python dict lookup `d[k]` (first binding with the key; a dict has at
most one). -/
def dictLookup (k : Int) : List (Int × α) → Option α
  | [] => none
  | (k2, v) :: t => if k2 = k then some v else dictLookup k t

/-- Model of `getRepeats` (source lines 393-400): fold the similarity groups
into the `measureRangeEqualities` dict keyed by `simplified[0]`, i.e. the
target start.  The call to music21's RepeatFinder is the external input
`simMGs`. -/
def getRepeats (simMGs : List SimGroup) : List (Int × RRange) :=
  simMGs.foldl (fun d g => dictInsert (simplifyGroup g).targetStart (simplifyGroup g) d) []

/-- The last group in the list whose simplified target start is `k`, if
any, simplified.  This is the binding a Python dict retains after the fold
in `getRepeats`. -/
def lastCandidate (k : Int) : List SimGroup → Option RRange
  | [] => none
  | g :: t =>
    match lastCandidate k t with
    | some r => some r
    | none =>
      if (simplifyGroup g).targetStart = k then some (simplifyGroup g) else none

theorem dictLookup_append (k : Int) (d e : List (Int × α)) :
    dictLookup k (d ++ e)
      = match dictLookup k d with
        | some v => some v
        | none => dictLookup k e := by
  induction d with
  | nil => simp [dictLookup]
  | cons p t ih =>
    by_cases h : p.1 = k
    · rcases p with ⟨k2, v⟩
      simp only [List.cons_append, dictLookup]
      simp only at h
      simp [h]
    · rcases p with ⟨k2, v⟩
      simp only [List.cons_append, dictLookup]
      simp only at h
      simp [h, ih]

theorem dictLookup_isSome_iff_any (k : Int) (d : List (Int × α)) :
    (d.any fun p => p.1 = k) = (dictLookup k d).isSome := by
  induction d with
  | nil => simp [dictLookup]
  | cons p t ih =>
    rcases p with ⟨k2, v⟩
    by_cases h : k2 = k
    · simp [dictLookup, h]
    · simp [dictLookup, h, ih]

theorem dictLookup_map_overwrite (k : Int) (v : α) (d : List (Int × α)) :
    dictLookup k (d.map fun p => if p.1 = k then (k, v) else p)
      = match dictLookup k d with
        | some _ => some v
        | none => none := by
  induction d with
  | nil => simp [dictLookup]
  | cons p t ih =>
    rcases p with ⟨k2, w⟩
    rw [List.map_cons]
    by_cases h : k2 = k
    · subst h
      rw [if_pos (show ((k2, w) : Int × α).1 = k2 from rfl)]
      simp [dictLookup]
    · rw [if_neg (show ¬ ((k2, w) : Int × α).1 = k from h)]
      simp [dictLookup, h, ih]

theorem dictLookup_map_other (k k2 : Int) (v : α) (d : List (Int × α))
    (hkk : k2 ≠ k) :
    dictLookup k (d.map fun p => if p.1 = k2 then (k2, v) else p)
      = dictLookup k d := by
  induction d with
  | nil => simp [dictLookup]
  | cons p t ih =>
    rcases p with ⟨k3, w⟩
    rw [List.map_cons]
    by_cases h : k3 = k2
    · subst h
      rw [if_pos (show ((k3, w) : Int × α).1 = k3 from rfl)]
      simp [dictLookup, hkk, Ne.symm hkk, ih]
    · rw [if_neg (show ¬ ((k3, w) : Int × α).1 = k2 from h)]
      by_cases h2 : k3 = k
      · simp [dictLookup, h2, ih]
      · simp [dictLookup, h2, ih]

theorem dictLookup_insert (k k2 : Int) (v : α) (d : List (Int × α)) :
    dictLookup k (dictInsert k2 v d)
      = if k2 = k then some v else dictLookup k d := by
  unfold dictInsert
  by_cases hpres : (d.any fun p => p.1 = k2) = true
  · simp only [hpres, if_true]
    by_cases hkk : k2 = k
    · subst hkk
      rw [dictLookup_map_overwrite]
      rw [dictLookup_isSome_iff_any] at hpres
      rcases hopt : dictLookup k2 d with _ | w
      · rw [hopt] at hpres; simp at hpres
      · simp
    · rw [dictLookup_map_other k k2 v d hkk]
      simp [hkk]
  · simp only [hpres, Bool.false_eq_true, if_false]
    rw [dictLookup_append]
    by_cases hkk : k2 = k
    · subst hkk
      rw [dictLookup_isSome_iff_any] at hpres
      rcases hopt : dictLookup k2 d with _ | w
      · simp [dictLookup]
      · rw [hopt] at hpres; simp at hpres
    · rcases hopt : dictLookup k d with _ | w
      · simp [dictLookup, hkk]
      · simp [dictLookup, hkk]

theorem dictInsert_keys_nodup (k : Int) (v : α) (d : List (Int × α))
    (h : (d.map Prod.fst).Nodup) : ((dictInsert k v d).map Prod.fst).Nodup := by
  unfold dictInsert
  by_cases hp : (d.any fun p => p.1 = k) = true
  · simp only [hp, if_true]
    have hkeys : (d.map fun p => if p.1 = k then (k, v) else p).map Prod.fst
        = d.map Prod.fst := by
      rw [List.map_map]
      refine List.map_congr_left ?_
      intro p _
      by_cases hq : p.1 = k
      · simp [hq]
      · simp [hq]
    rw [hkeys]
    exact h
  · simp only [hp, Bool.false_eq_true, if_false]
    rw [List.map_append]
    have hnotin : k ∉ d.map Prod.fst := by
      intro hmem
      rcases List.mem_map.mp hmem with ⟨p, hpd, hpk⟩
      have : (d.any fun p => p.1 = k) = true :=
        List.any_eq_true.mpr ⟨p, hpd, by simp [hpk]⟩
      exact hp this
    simp [List.nodup_append, h, hnotin]

theorem getRepeats_keys_nodup (simMGs : List SimGroup) :
    ((getRepeats simMGs).map Prod.fst).Nodup := by
  unfold getRepeats
  have main : ∀ (gs : List SimGroup) (d : List (Int × RRange)),
      (d.map Prod.fst).Nodup →
      ((gs.foldl (fun d g =>
        dictInsert (simplifyGroup g).targetStart (simplifyGroup g) d) d).map
          Prod.fst).Nodup := by
    intro gs
    induction gs with
    | nil => intro d h; exact h
    | cons g t ih =>
      intro d h
      exact ih _ (dictInsert_keys_nodup _ _ d h)
  exact main simMGs [] (by simp)

theorem getRepeats_lookup (simMGs : List SimGroup) (k : Int) :
    dictLookup k (getRepeats simMGs) = lastCandidate k simMGs := by
  unfold getRepeats
  have main : ∀ (gs : List SimGroup) (d : List (Int × RRange)),
      dictLookup k (gs.foldl (fun d g =>
        dictInsert (simplifyGroup g).targetStart (simplifyGroup g) d) d)
        = match lastCandidate k gs with
          | some r => some r
          | none => dictLookup k d := by
    intro gs
    induction gs with
    | nil => intro d; simp [lastCandidate]
    | cons g t ih =>
      intro d
      rw [List.foldl_cons, ih]
      rcases hlc : lastCandidate k t with _ | r
      · simp only [lastCandidate, hlc]
        rw [dictLookup_insert]
        by_cases hk : (simplifyGroup g).targetStart = k
        · simp [hk]
        · simp [hk]
      · simp only [lastCandidate, hlc]
  rw [main simMGs []]
  rcases hlc : lastCandidate k simMGs with _ | r
  · simp [dictLookup]
  · simp

theorem getRepeats_entry_keys (simMGs : List SimGroup) :
    ((getRepeats simMGs).all fun p => decide (p.1 = p.2.targetStart)) = true := by
  unfold getRepeats
  have main : ∀ (gs : List SimGroup) (d : List (Int × RRange)),
      ((d.all fun p => decide (p.1 = p.2.targetStart)) = true) →
      ((gs.foldl (fun d g =>
        dictInsert (simplifyGroup g).targetStart (simplifyGroup g) d) d).all
          fun p => decide (p.1 = p.2.targetStart)) = true := by
    intro gs
    induction gs with
    | nil => intro d h; exact h
    | cons g t ih =>
      intro d h
      refine ih _ ?_
      unfold dictInsert
      by_cases hp : (d.any fun p => p.1 = (simplifyGroup g).targetStart) = true
      · simp only [hp, if_true]
        rw [List.all_eq_true] at h ⊢
        intro p hpmem
        rcases List.mem_map.mp hpmem with ⟨q, hqd, hqp⟩
        by_cases hq : q.1 = (simplifyGroup g).targetStart
        · rw [if_pos hq] at hqp
          subst hqp
          simp
        · rw [if_neg hq] at hqp
          subst hqp
          exact h q hqd
      · simp only [hp, Bool.false_eq_true, if_false]
        rw [List.all_append, h]
        simp
  exact main simMGs [] (by simp)

/-- C3 counterexample.  First input: two upstream groups whose target
extents overlap (measures 5-6 and 6-7); both are retained, so returned
target ranges can overlap.  Second input: two groups sharing targetStart 5;
the retained range is the one from the second (last-discovered) group, not
the first.  Third input: a group whose runs have different lengths; the
returned range has `targetEnd - targetStart = 0` but
`sourceEnd - sourceStart = 1`. -/
theorem getRepeats_claim_counterexample :
    getRepeats [⟨[1, 2], [5, 6]⟩, ⟨[3, 4], [6, 7]⟩]
        = [(5, ⟨5, 6, 1, 2⟩), (6, ⟨6, 7, 3, 4⟩)] ∧
      getRepeats [⟨[1, 2], [5, 6]⟩, ⟨[10], [5]⟩]
        = [(5, ⟨5, 5, 10, 10⟩)] ∧
      (⟨5, 5, 10, 10⟩ : RRange) ≠ simplifyGroup ⟨[1, 2], [5, 6]⟩ ∧
      getRepeats [⟨[1, 2], [5]⟩] = [(5, ⟨5, 5, 1, 2⟩)] ∧
      ¬((5 : Int) - 5 = 2 - 1) := by
  refine ⟨by decide, by decide, by decide, by decide, by decide⟩

/-- C3 (amended): the returned ranges are keyed by targetStart with no two
ranges sharing a targetStart, and for each targetStart the retained range is
the one from the LAST-discovered upstream group with that targetStart
(Python dict assignment overwrites).  Overlap-freedom of target extents and
equality of target and source lengths are not enforced by the detector; they
hold only if the upstream similarity groups already satisfy them. -/
theorem getRepeats_dedup_last_wins (simMGs : List SimGroup) :
    ((getRepeats simMGs).map Prod.fst).Nodup ∧
      ((getRepeats simMGs).all fun p => decide (p.1 = p.2.targetStart)) = true ∧
      (∀ k, dictLookup k (getRepeats simMGs) = lastCandidate k simMGs) :=
  ⟨getRepeats_keys_nodup simMGs, getRepeats_entry_keys simMGs,
    fun k => getRepeats_lookup simMGs k⟩

-- ------------------------------------------------------------------------
-- RnAnalysis.__init__ (source lines 81-131) and
-- processTemplateParts (source lines 402-432)

/-- A Python value appearing as an element of a `templateParts` list:
either an int or something of another type. -/
inductive PyElem where
  | pyInt (z : Int)
  | nonInt
deriving DecidableEq

/-- The `templateParts` argument: the string `all`, a Python list, or a
value of any other type. -/
inductive TemplatePartsVal where
  | strAll
  | pyList (xs : List PyElem)
  | otherVal
deriving DecidableEq

/-- The slice of a music21 score that the modelled core reads: the measure
numbers of part 0, the number of parts, and the (measureNumber, ratioString)
pairs of the time signatures in part 0.  Parsing the score file is an
external capability. -/
structure ScoreModel where
  part0MeasureNumbers : List Int
  numParts : Nat
  tsPairs : List (Int × String)
deriving DecidableEq

/-- Errors raised by `RnAnalysis.__init__` (both are `ValueError` in the
source; the model distinguishes the two raise sites). -/
inductive InitError where
  | invalidFirstMeasure
  | invalidAnnotationTextClass
deriving DecidableEq

/-- Model of `getTSs` (source lines 133-141): build the
`timeSigMeasureDict` from the time signatures, with Python dict assignment
semantics. -/
def getTSs (score : ScoreModel) : List (Int × String) :=
  score.tsPairs.foldl (fun d p => dictInsert p.1 p.2 d) []

/-- The state set up by a successful `RnAnalysis.__init__`. -/
structure RnState where
  firstMeasureNumber : Int
  lastMeasureNumber : Int
  timeSigMeasureDict : List (Int × String)
  templateParts : TemplatePartsVal
  annotationTextClass : String
deriving DecidableEq

/-- Model of `RnAnalysis.__init__` (source lines 81-131): after reading
measure numbers of part 0, raise `ValueError` if the first measure number is
not 0 or 1 (lines 102-104); later raise `ValueError` if the annotation text
class is neither `Lyric` nor `TextExpression` (lines 117-121); otherwise
record the state.  The metadata preamble (prepPreamble) is an external
concern and is not modelled.  The `templateParts` argument is stored without
any validation.  Scores always have at least one measure; the first and last
measure numbers are read with default 0. -/
def initRnAnalysis (score : ScoreModel) (templateParts : TemplatePartsVal)
    (annotationTextClass : String) : Except InitError RnState :=
  if score.part0MeasureNumbers.headD 0 ∈ ([0, 1] : List Int) then
    if annotationTextClass ∈ (["Lyric", "TextExpression"] : List String) then
      .ok
        { firstMeasureNumber := score.part0MeasureNumbers.headD 0
          lastMeasureNumber := score.part0MeasureNumbers.getLastD 0
          timeSigMeasureDict := getTSs score
          templateParts := templateParts
          annotationTextClass := annotationTextClass }
    else .error .invalidAnnotationTextClass
  else .error .invalidFirstMeasure

/-- Model of `processTemplateParts` (source lines 402-432): `all` keeps the
whole score; a list must contain only non-negative ints, else `ValueError`;
any other value raises `ValueError`.  The result is the list of part indices
kept in `tempScore` (removal of the other parts, lines 424-432). -/
def processTemplateParts (numParts : Nat) (templateParts : TemplatePartsVal) :
    Except Unit (List Nat) :=
  match templateParts with
  | .strAll => .ok (List.range numParts)
  | .pyList xs =>
    if xs.all fun x => match x with
        | .pyInt z => decide (0 ≤ z)
        | .nonInt => false then
      .ok ((List.range numParts).filter fun i => xs.contains (.pyInt (i : Int)))
    else .error ()
  | .otherVal => .error ()

/-- Selector validity in the spec's words: the AllParts marker or a list of
non-negative integers. -/
def validSelector : TemplatePartsVal → Bool
  | .strAll => true
  | .pyList xs =>
    xs.all fun x => match x with
      | .pyInt z => decide (0 ≤ z)
      | .nonInt => false
  | .otherVal => false

/-- C6 counterexample: constructing the analysis object with the invalid
selector `[-1]` succeeds (no validation at construction); the error is
raised only when `processTemplateParts` runs. -/
theorem selector_not_validated_at_construction :
    initRnAnalysis ⟨[1, 2], 2, []⟩ (.pyList [.pyInt (-1)]) "Lyric"
        = .ok ⟨1, 2, [], .pyList [.pyInt (-1)], "Lyric"⟩ ∧
      processTemplateParts 2 (.pyList [.pyInt (-1)]) = .error () := by
  exact ⟨rfl, rfl⟩

/-- C6 (amended): construction performs no selector validation (whether it
succeeds does not depend on the selector); the selector is validated at use
by `processTemplateParts`, which succeeds exactly on the `all` marker or a
list of non-negative integers and raises `ValueError` otherwise, including
on any negative index. -/
theorem selector_validated_at_use :
    (∀ (score : ScoreModel) (tc : String) (tp tp2 : TemplatePartsVal),
      (initRnAnalysis score tp tc).isOk = (initRnAnalysis score tp2 tc).isOk) ∧
      (∀ (n : Nat) (tp : TemplatePartsVal),
        (processTemplateParts n tp).isOk = validSelector tp) := by
  constructor
  · intro score tc tp tp2
    unfold initRnAnalysis
    by_cases h1 : score.part0MeasureNumbers.headD 0 ∈ ([0, 1] : List Int)
    · rw [if_pos h1, if_pos h1]
      by_cases h2 : tc ∈ (["Lyric", "TextExpression"] : List String)
      · rw [if_pos h2, if_pos h2]
        rfl
      · rw [if_neg h2, if_neg h2]
    · rw [if_neg h1, if_neg h1]
  · intro n tp
    cases tp with
    | strAll => rfl
    | pyList xs =>
      unfold processTemplateParts validSelector
      cases hb : (xs.all fun x => match x with
          | .pyInt z => decide (0 ≤ z)
          | .nonInt => false) <;>
        simp [hb, Except.isOk, Except.toBool]
    | otherVal => rfl

/-- C9: construction raises the first-measure `ValueError` exactly when the
score's first measure number is neither 0 nor 1; the check is the first one
performed, before any output exists. -/
theorem init_invalid_first_measure_iff (score : ScoreModel)
    (tp : TemplatePartsVal) (tc : String)
    (hne : score.part0MeasureNumbers ≠ []) :
    initRnAnalysis score tp tc = .error .invalidFirstMeasure ↔
      score.part0MeasureNumbers.headD 0 ∉ ([0, 1] : List Int) := by
  unfold initRnAnalysis
  by_cases h1 : score.part0MeasureNumbers.headD 0 ∈ ([0, 1] : List Int)
  · rw [if_pos h1]
    by_cases h2 : tc ∈ (["Lyric", "TextExpression"] : List String)
    · rw [if_pos h2]
      exact iff_of_false (by simp) (fun hr => hr h1)
    · rw [if_neg h2]
      exact iff_of_false (by simp) (fun hr => hr h1)
  · rw [if_neg h1]
    exact iff_of_true rfl h1

/-- Witness for `init_invalid_first_measure_iff` at a concrete score whose
first measure number is 5. -/
theorem init_invalid_first_measure_witness :
    (([5, 6] : List Int) ≠ []) ∧
      (initRnAnalysis ⟨[5, 6], 1, []⟩ .strAll "Lyric" = .error .invalidFirstMeasure ↔
        (([5, 6] : List Int).headD 0 ∉ ([0, 1] : List Int))) :=
  ⟨by decide, init_invalid_first_measure_iff ⟨[5, 6], 1, []⟩ .strAll "Lyric" (by decide)⟩

-- ------------------------------------------------------------------------
-- prepList (source lines 434-484)

/-- Integer range `range(a, b + 1)` of the Python loop at source line 463. -/
def rangeInts (a b : Int) : List Int :=
  (List.range (b + 1 - a).toNat).map (fun i => a + (i : Int))

/-- Model of `prepList` (source lines 434-484), written exactly as the
source loop: an accumulator list that each measure number appends to.  The
time-signature dict comes from `getTSs`; `measureRangeEqualities` is
computed by `getRepeats` from the external similarity groups (line 457);
`analysisDict` is the mapping built by `makeMeasureStrings` (line 461) and
is given as an input here (it is only read when `template` is false). -/
def prepList (firstMeasureNumber lastMeasureNumber : Int)
    (tsDict : List (Int × String)) (simMGs : List SimGroup)
    (analysisDict : List (Int × String)) (template : Bool) : List String :=
  (rangeInts firstMeasureNumber lastMeasureNumber).foldl
    (fun acc x =>
      let acc2 :=
        match dictLookup x tsDict with
        | some ts => acc ++ ["\nTime Signature: " ++ ts]
        | none => acc
      let acc3 :=
        match dictLookup x (getRepeats simMGs) with
        | some e =>
          if e.targetStart = e.targetEnd then
            acc2 ++ ["m" ++ toString e.targetStart ++ " = m" ++ toString e.sourceStart]
          else
            acc2 ++ ["m" ++ toString e.targetStart ++ "-" ++ toString e.targetEnd
              ++ " = m" ++ toString e.sourceStart ++ "-" ++ toString e.sourceEnd]
        | none => acc2
      if template then acc3 ++ ["m" ++ toString x ++ " b1"]
      else
        match dictLookup x analysisDict with
        | some line => acc3 ++ [line]
        | none => acc3)
    []

/-- The per-measure lines of the claim, in the claim's order: the
time-signature directive if the measure has a change, then the repeat
shorthand if the measure is a targetStart (single-measure or range form),
then the unconditional template line in template mode, or the accumulated
content line (nothing when none exists) otherwise. -/
def measureLines (tsDict : List (Int × String)) (mre : List (Int × RRange))
    (analysisDict : List (Int × String)) (template : Bool) (x : Int) : List String :=
  (match dictLookup x tsDict with
    | some ts => ["\nTime Signature: " ++ ts]
    | none => []) ++
  (match dictLookup x mre with
    | some e =>
      if e.targetStart = e.targetEnd then
        ["m" ++ toString e.targetStart ++ " = m" ++ toString e.sourceStart]
      else
        ["m" ++ toString e.targetStart ++ "-" ++ toString e.targetEnd
          ++ " = m" ++ toString e.sourceStart ++ "-" ++ toString e.sourceEnd]
    | none => []) ++
  (if template then ["m" ++ toString x ++ " b1"]
   else
     match dictLookup x analysisDict with
     | some line => [line]
     | none => [])

/-- The serializer as the claim describes it: iterate the measure numbers
from first to last inclusive in ascending order and emit the per-measure
lines of `measureLines` in sequence. -/
def serializeSpec (firstMeasureNumber lastMeasureNumber : Int)
    (tsDict : List (Int × String)) (simMGs : List SimGroup)
    (analysisDict : List (Int × String)) (template : Bool) : List String :=
  (rangeInts firstMeasureNumber lastMeasureNumber).flatMap
    (measureLines tsDict (getRepeats simMGs) analysisDict template)

theorem foldl_append_eq_flatMap (emit : Int → List String) :
    ∀ (l : List Int) (acc : List String),
      l.foldl (fun acc x => acc ++ emit x) acc = acc ++ l.flatMap emit := by
  intro l
  induction l with
  | nil => intro acc; simp
  | cons x t ih =>
    intro acc
    rw [List.foldl_cons, ih, List.flatMap_cons, List.append_assoc]

/-- C7: the serializer loop is exactly the claim's per-measure emission.
The fold of `prepList` equals the flat concatenation of the claim's ordered
per-measure lines over the ascending inclusive measure range. -/
theorem prepList_serializes_in_order (firstMeasureNumber lastMeasureNumber : Int)
    (tsDict : List (Int × String)) (simMGs : List SimGroup)
    (analysisDict : List (Int × String)) (template : Bool) :
    prepList firstMeasureNumber lastMeasureNumber tsDict simMGs analysisDict template
      = serializeSpec firstMeasureNumber lastMeasureNumber tsDict simMGs
          analysisDict template := by
  unfold prepList serializeSpec
  have hstep : (fun (acc : List String) (x : Int) =>
      let acc2 :=
        match dictLookup x tsDict with
        | some ts => acc ++ ["\nTime Signature: " ++ ts]
        | none => acc
      let acc3 :=
        match dictLookup x (getRepeats simMGs) with
        | some e =>
          if e.targetStart = e.targetEnd then
            acc2 ++ ["m" ++ toString e.targetStart ++ " = m" ++ toString e.sourceStart]
          else
            acc2 ++ ["m" ++ toString e.targetStart ++ "-" ++ toString e.targetEnd
              ++ " = m" ++ toString e.sourceStart ++ "-" ++ toString e.sourceEnd]
        | none => acc2
      if template then acc3 ++ ["m" ++ toString x ++ " b1"]
      else
        match dictLookup x analysisDict with
        | some line => acc3 ++ [line]
        | none => acc3)
      = fun acc x => acc ++ measureLines tsDict (getRepeats simMGs) analysisDict template x := by
    funext acc x
    unfold measureLines
    rcases dictLookup x tsDict with _ | ts <;>
      rcases dictLookup x (getRepeats simMGs) with _ | e <;>
      rcases dictLookup x analysisDict with _ | line <;>
      cases template <;>
      first
        | (by_cases he : e.targetStart = e.targetEnd <;> simp [he])
        | simp
  rw [hstep, foldl_append_eq_flatMap]
  simp

-- ------------------------------------------------------------------------
-- chfyChordAndLabel (source lines 236-319): the harmony state machine

/-- One annotation `[measureNumber, beat, txt]` as stored in
`annotationsAndLocations` (source lines 221 and 230). -/
structure Annot where
  measure : Int
  beat : Rat
  text : List Char
deriving DecidableEq

/-- One chordified note: its position plus opaque harmonic content (a token
standing for the pitch set, owned by the external notation layer). -/
structure ChordEv where
  measureNumber : Int
  beat : Rat
  pitches : Nat
deriving DecidableEq

/-- The mutable locals of the loop in `chfyChordAndLabel` (source lines
266-268 and the loop body): the annotation cursor, the current key, the
current tonicization, and the last consumed annotation text
(`stringInQuestion`, a Python local that persists across iterations once
assigned). -/
structure MachState where
  currentIndex : Nat
  currentKey : List Char
  currentTonicization : Option (List Char)
  stringInQuestion : Option (List Char)
deriving DecidableEq

/-- Python truthiness of an optional string: `None` and the empty string are
falsy. -/
def pyTruthy : Option (List Char) → Bool
  | none => false
  | some s => !s.isEmpty

/-- The initial state of the loop (source lines 266-268):
`currentIndex = 0`, `currentKey = 'FAKE KEY'`, no tonicization, and
`stringInQuestion` not yet assigned. -/
def initMachState : MachState :=
  { currentIndex := 0
    currentKey := "FAKE KEY".toList
    currentTonicization := none
    stringInQuestion := none }

/-- The external Roman-numeral derivation
`roman.romanNumeralFromChord(ch, key.Key(k)).figure` (source lines 297-308):
given the chord and the effective key string, produce the figure string. -/
def RnOracle : Type := ChordEv → List Char → List Char

/-- The external local-key resolution `getLocalKey` (source lines 533-546):
from the tonicization token and the global key, produce the local key
string, or fail with the `ValueError` raised when the resolved triad is
neither major nor minor (`InvalidTonicizationError`). -/
def LocalKeyFn : Type := List Char → List Char → Except Unit (List Char)

/-- The tonicization reset of source lines 279-280: when tonicizations do
not remain in effect, clear `currentTonicization` before each chord. -/
def resetTonicization (tonicizationsRemainInEffect : Bool) (st : MachState) : MachState :=
  if !tonicizationsRemainInEffect then { st with currentTonicization := none }
  else st

/-- The annotation-consumption phase of source lines 283-293: when the
annotation at the cursor exists and its `[measure, beat]` equals the
chord's, consume it, advancing the cursor and recording
`stringInQuestion`; a text containing `/` sets the tonicization to the text
with its first character dropped (`stringInQuestion[1:]`), any other text
becomes the current key and definitely resets the tonicization. -/
def chfyConsume (keyData : List Annot) (st1 : MachState) (ch : ChordEv) : MachState :=
  match keyData.get? st1.currentIndex with
  | some a =>
    if ch.measureNumber = a.measure ∧ ch.beat = a.beat then
      if a.text.contains '/' then
        { st1 with
            currentIndex := st1.currentIndex + 1
            stringInQuestion := some a.text
            currentTonicization := some (a.text.drop 1) }
      else
        { st1 with
            currentIndex := st1.currentIndex + 1
            stringInQuestion := some a.text
            currentKey := a.text
            currentTonicization := none }
    else st1
  | none => st1

/-- One iteration of the loop of `chfyChordAndLabel` (source lines
276-319) on one chord: remember the start key; reset the tonicization when
tonicizations do not remain in effect; consume the annotation at the cursor
when its `[measure, beat]` equals the chord's; derive the Roman numeral
against the effective key (possibly failing inside `getLocalKey`); and build
the lyric, prefixing `key + ': '` on a key change and appending
`stringInQuestion` when a tonicization is active. -/
def chfyStep (keyData : List Annot) (tonicizationsRemainInEffect : Bool)
    (oracle : RnOracle) (lk : LocalKeyFn) (st : MachState) (ch : ChordEv) :
    Except Unit (MachState × (Int × Rat × List Char)) :=
  let startKey := st.currentKey
  let st2 := chfyConsume keyData (resetTonicization tonicizationsRemainInEffect st) ch
  let emit : List Char → MachState × (Int × Rat × List Char) := fun rn =>
    let lyric :=
      if startKey ≠ st2.currentKey then st2.currentKey ++ (':' :: ' ' :: rn)
      else if pyTruthy st2.currentTonicization then
        rn ++
          (match st2.stringInQuestion with
            | some s => s
            | none => [])
      else rn
    (st2, (ch.measureNumber, ch.beat, lyric))
  if !(pyTruthy st2.currentTonicization) then
    .ok (emit (oracle ch st2.currentKey))
  else
    match st2.currentTonicization with
    | some tz =>
      match lk tz st2.currentKey with
      | .error e => .error e
      | .ok localKey => .ok (emit (oracle ch localKey))
    | none => .ok (emit (oracle ch st2.currentKey))

/-- The loop of `chfyChordAndLabel` over the chordified notes, threading the
state and collecting the `[measure, beat, lyric]` entries appended to
`deducedAnalysis` (source lines 276-319). -/
def chfyGo (keyData : List Annot) (tonicizationsRemainInEffect : Bool)
    (oracle : RnOracle) (lk : LocalKeyFn) :
    MachState → List ChordEv → Except Unit (MachState × List (Int × Rat × List Char))
  | st, [] => .ok (st, [])
  | st, ch :: rest =>
    match chfyStep keyData tonicizationsRemainInEffect oracle lk st ch with
    | .error e => .error e
    | .ok (st2, entry) =>
      match chfyGo keyData tonicizationsRemainInEffect oracle lk st2 rest with
      | .error e => .error e
      | .ok (stF, entries) => .ok (stF, entry :: entries)

/-- Model of `chfyChordAndLabel` (source lines 236-319): run the loop from
the initial state.  The chordified notes and the annotation list are the
inputs; part removal, stripTies and chordify are external. -/
def chfyChordAndLabel (chNotes : List ChordEv) (keyData : List Annot)
    (tonicizationsRemainInEffect : Bool) (oracle : RnOracle) (lk : LocalKeyFn) :
    Except Unit (MachState × List (Int × Rat × List Char)) :=
  chfyGo keyData tonicizationsRemainInEffect oracle lk initMachState chNotes

theorem resetTonicization_currentIndex (flag : Bool) (st : MachState) :
    (resetTonicization flag st).currentIndex = st.currentIndex := by
  cases flag <;> rfl

theorem resetTonicization_of_none (flag : Bool) (st : MachState)
    (h : st.currentTonicization = none) : resetTonicization flag st = st := by
  cases st with
  | mk i k t s =>
    simp only at h
    subst h
    cases flag <;> rfl

theorem chfyConsume_currentIndex (keyData : List Annot) (st1 : MachState)
    (ch : ChordEv) :
    (chfyConsume keyData st1 ch).currentIndex = st1.currentIndex ∨
      (chfyConsume keyData st1 ch).currentIndex = st1.currentIndex + 1 := by
  unfold chfyConsume
  rcases keyData.get? st1.currentIndex with _ | a
  · exact Or.inl rfl
  · dsimp only
    by_cases hm : ch.measureNumber = a.measure ∧ ch.beat = a.beat
    · rw [if_pos hm]
      by_cases hs : a.text.contains '/'
      · rw [if_pos hs]
        exact Or.inr rfl
      · rw [if_neg hs]
        exact Or.inr rfl
    · rw [if_neg hm]
      exact Or.inl rfl

theorem chfyStep_ok_state (keyData : List Annot) (flag : Bool)
    (oracle : RnOracle) (lk : LocalKeyFn) (st : MachState) (ch : ChordEv)
    (st2 : MachState) (e : Int × Rat × List Char)
    (h : chfyStep keyData flag oracle lk st ch = .ok (st2, e)) :
    st2 = chfyConsume keyData (resetTonicization flag st) ch := by
  unfold chfyStep at h
  by_cases hb : (!(pyTruthy (chfyConsume keyData (resetTonicization flag st) ch).currentTonicization)) = true
  · rw [if_pos hb] at h
    simp only [Except.ok.injEq, Prod.mk.injEq] at h
    exact h.1.symm
  · rw [if_neg hb] at h
    rcases htz : (chfyConsume keyData (resetTonicization flag st) ch).currentTonicization with _ | tz
    · rw [htz] at h
      dsimp only at h
      simp only [Except.ok.injEq, Prod.mk.injEq] at h
      exact h.1.symm
    · rw [htz] at h
      dsimp only at h
      rcases hlk : lk tz (chfyConsume keyData (resetTonicization flag st) ch).currentKey with el | localKey
      · rw [hlk] at h
        simp at h
      · rw [hlk] at h
        simp only [Except.ok.injEq, Prod.mk.injEq] at h
        exact h.1.symm

theorem chfyStep_index_le (keyData : List Annot) (flag : Bool)
    (oracle : RnOracle) (lk : LocalKeyFn) (st : MachState) (ch : ChordEv)
    (st2 : MachState) (e : Int × Rat × List Char)
    (h : chfyStep keyData flag oracle lk st ch = .ok (st2, e)) :
    st.currentIndex ≤ st2.currentIndex := by
  rw [chfyStep_ok_state keyData flag oracle lk st ch st2 e h]
  rcases chfyConsume_currentIndex keyData (resetTonicization flag st) ch with hi | hi <;>
    rw [hi, resetTonicization_currentIndex] <;> omega

theorem chfyGo_index_le (keyData : List Annot) (flag : Bool)
    (oracle : RnOracle) (lk : LocalKeyFn) :
    ∀ (chords : List ChordEv) (st stF : MachState)
      (es : List (Int × Rat × List Char)),
      chfyGo keyData flag oracle lk st chords = .ok (stF, es) →
      st.currentIndex ≤ stF.currentIndex := by
  intro chords
  induction chords with
  | nil =>
    intro st stF es h
    simp only [chfyGo, Except.ok.injEq, Prod.mk.injEq] at h
    rw [← h.1]
  | cons ch rest ih =>
    intro st stF es h
    simp only [chfyGo] at h
    rcases hstep : chfyStep keyData flag oracle lk st ch with el | p
    · rw [hstep] at h; simp at h
    · rw [hstep] at h
      rcases p with ⟨st1, entry⟩
      dsimp only at h
      rcases hgo : chfyGo keyData flag oracle lk st1 rest with el | q
      · rw [hgo] at h; simp at h
      · rw [hgo] at h
        rcases q with ⟨stF2, es2⟩
        dsimp only at h
        simp only [Except.ok.injEq, Prod.mk.injEq] at h
        have h1 := chfyStep_index_le keyData flag oracle lk st ch st1 entry hstep
        have h2 := ih st1 stF2 es2 hgo
        rw [h.1] at h2
        omega

theorem chfyStep_empty_keyData (flag : Bool) (oracle : RnOracle)
    (lk : LocalKeyFn) (st : MachState) (ch : ChordEv)
    (hton : st.currentTonicization = none) :
    chfyStep [] flag oracle lk st ch
      = .ok (st, (ch.measureNumber, ch.beat, oracle ch st.currentKey)) := by
  have hreset : resetTonicization flag st = st := resetTonicization_of_none flag st hton
  have hcons : chfyConsume [] st ch = st := by
    unfold chfyConsume
    simp
  unfold chfyStep
  rw [hreset, hcons]
  simp [pyTruthy, hton]

theorem chfyGo_empty_keyData (flag : Bool) (oracle : RnOracle) (lk : LocalKeyFn) :
    ∀ (chords : List ChordEv) (st : MachState),
      st.currentTonicization = none →
      chfyGo [] flag oracle lk st chords
        = .ok (st, chords.map fun ch =>
            (ch.measureNumber, ch.beat, oracle ch st.currentKey)) := by
  intro chords
  induction chords with
  | nil => intro st _; rfl
  | cons ch rest ih =>
    intro st hton
    simp only [chfyGo]
    rw [chfyStep_empty_keyData flag oracle lk st ch hton]
    dsimp only
    rw [ih st hton]
    dsimp only
    rw [List.map_cons]

/-- C5: with an empty annotation sequence, the run succeeds for every chord
sequence, every flag value, every Roman-numeral oracle and every local-key
resolver (so `InvalidTonicizationError` is never raised), the state never
changes, and every emitted label is exactly the bare figure derived against
the initial key, with no key prefix added. -/
theorem chfy_no_annotations (chNotes : List ChordEv) (flag : Bool)
    (oracle : RnOracle) (lk : LocalKeyFn) :
    chfyChordAndLabel chNotes [] flag oracle lk
      = .ok (initMachState, chNotes.map fun ch =>
          (ch.measureNumber, ch.beat, oracle ch initMachState.currentKey)) :=
  chfyGo_empty_keyData flag oracle lk chNotes initMachState rfl

theorem chfyConsume_append (keyData rest : List Annot) (st1 : MachState)
    (ch : ChordEv) (hidx : st1.currentIndex < keyData.length) :
    chfyConsume (keyData ++ rest) st1 ch = chfyConsume keyData st1 ch := by
  unfold chfyConsume
  rw [List.get?_append hidx]

theorem chfyStep_append (keyData rest : List Annot) (flag : Bool)
    (oracle : RnOracle) (lk : LocalKeyFn) (st : MachState) (ch : ChordEv)
    (hidx : st.currentIndex < keyData.length) :
    chfyStep (keyData ++ rest) flag oracle lk st ch
      = chfyStep keyData flag oracle lk st ch := by
  unfold chfyStep
  rw [chfyConsume_append keyData rest (resetTonicization flag st) ch
    (by rw [resetTonicization_currentIndex]; exact hidx)]

theorem chfyGo_append (keyData rest : List Annot) (flag : Bool)
    (oracle : RnOracle) (lk : LocalKeyFn) :
    ∀ (chords : List ChordEv) (st stF : MachState)
      (es : List (Int × Rat × List Char)),
      chfyGo keyData flag oracle lk st chords = .ok (stF, es) →
      stF.currentIndex < keyData.length →
      chfyGo (keyData ++ rest) flag oracle lk st chords = .ok (stF, es) := by
  intro chords
  induction chords with
  | nil =>
    intro st stF es h _
    simpa [chfyGo] using h
  | cons ch chords2 ih =>
    intro st stF es h hlt
    simp only [chfyGo] at h
    rcases hstep : chfyStep keyData flag oracle lk st ch with el | p
    · rw [hstep] at h; simp at h
    · rw [hstep] at h
      rcases p with ⟨st1, entry⟩
      dsimp only at h
      rcases hgo : chfyGo keyData flag oracle lk st1 chords2 with el | q
      · rw [hgo] at h; simp at h
      · rw [hgo] at h
        rcases q with ⟨stF2, es2⟩
        dsimp only at h
        simp only [Except.ok.injEq, Prod.mk.injEq] at h
        have hidx1 : st.currentIndex < keyData.length := by
          have h1 := chfyStep_index_le keyData flag oracle lk st ch st1 entry hstep
          have h2 := chfyGo_index_le keyData flag oracle lk chords2 st1 stF2 es2 hgo
          rw [h.1] at h2
          omega
        have hlt2 : stF2.currentIndex < keyData.length := by
          rw [h.1]; exact hlt
        simp only [chfyGo]
        rw [chfyStep_append keyData rest flag oracle lk st ch hidx1, hstep]
        dsimp only
        rw [ih st1 stF2 es2 hgo hlt2]
        dsimp only
        rw [h.1, h.2]

/-- C10: the annotation cursor advances exactly when the annotation at the
cursor has the chord's exact (measure, beat) position; consequently, when
the run leaves the cursor strictly inside the annotation list (so the
annotation at the cursor was never consumed), appending any further
annotations after the list changes nothing: no later annotation is ever
consumed, even if a later chord's position equals a later annotation's
position. -/
theorem chfy_cursor_only_advances_on_match :
    (∀ (keyData : List Annot) (flag : Bool) (oracle : RnOracle) (lk : LocalKeyFn)
      (st : MachState) (ch : ChordEv) (st2 : MachState) (e : Int × Rat × List Char),
      chfyStep keyData flag oracle lk st ch = .ok (st2, e) →
      ((st2.currentIndex = st.currentIndex + 1 ∧
          ∃ a, keyData.get? st.currentIndex = some a ∧
            ch.measureNumber = a.measure ∧ ch.beat = a.beat) ∨
        (st2.currentIndex = st.currentIndex ∧
          ¬∃ a, keyData.get? st.currentIndex = some a ∧
            ch.measureNumber = a.measure ∧ ch.beat = a.beat))) ∧
      (∀ (keyData rest : List Annot) (flag : Bool) (oracle : RnOracle)
        (lk : LocalKeyFn) (chords : List ChordEv) (stF : MachState)
        (es : List (Int × Rat × List Char)),
        chfyChordAndLabel chords keyData flag oracle lk = .ok (stF, es) →
        stF.currentIndex < keyData.length →
        chfyChordAndLabel chords (keyData ++ rest) flag oracle lk = .ok (stF, es)) := by
  constructor
  · intro keyData flag oracle lk st ch st2 e h
    have hst2 := chfyStep_ok_state keyData flag oracle lk st ch st2 e h
    have hidx := resetTonicization_currentIndex flag st
    rw [hst2]
    unfold chfyConsume
    rw [hidx]
    rcases hget : keyData.get? st.currentIndex with _ | a
    · right
      constructor
      · exact hidx
      · rintro ⟨a, ha, _⟩
        exact Option.noConfusion ha
    · dsimp only
      by_cases hm : ch.measureNumber = a.measure ∧ ch.beat = a.beat
      · rw [if_pos hm]
        by_cases hs : a.text.contains '/' = true
        · rw [if_pos hs]
          exact Or.inl ⟨rfl, a, rfl, hm.1, hm.2⟩
        · rw [if_neg hs]
          exact Or.inl ⟨rfl, a, rfl, hm.1, hm.2⟩
      · rw [if_neg hm]
        right
        constructor
        · exact hidx
        · rintro ⟨b, hb, hbm, hbb⟩
          cases hb
          exact hm ⟨hbm, hbb⟩
  · intro keyData rest flag oracle lk chords stF es h hlt
    exact chfyGo_append keyData rest flag oracle lk chords initMachState stF es h hlt

/-- Witness for `chfy_cursor_only_advances_on_match` on a concrete run: one
chord at (1, 1), an annotation list whose head sits at (2, 1) and so never
matches; the cursor stays at 0, and appending a further annotation at the
chord's own position (1, 1) changes nothing. -/
theorem chfy_cursor_witness :
    chfyChordAndLabel [⟨1, 1, 0⟩] [⟨2, 1, ['G']⟩, ⟨1, 1, ['a']⟩] false
        (fun _ _ => ['I']) (fun t k => .ok (t ++ k))
      = .ok (initMachState, [(1, 1, ['I'])]) ∧
      chfyChordAndLabel [⟨1, 1, 0⟩]
          ([⟨2, 1, ['G']⟩, ⟨1, 1, ['a']⟩] ++ [⟨1, 1, ['b']⟩]) false
          (fun _ _ => ['I']) (fun t k => .ok (t ++ k))
        = .ok (initMachState, [(1, 1, ['I'])]) :=
  ⟨rfl,
   chfy_cursor_only_advances_on_match.2 [⟨2, 1, ['G']⟩, ⟨1, 1, ['a']⟩]
     [⟨1, 1, ['b']⟩] false (fun _ _ => ['I']) (fun t k => .ok (t ++ k))
     [⟨1, 1, 0⟩] initMachState [(1, 1, ['I'])] rfl (by decide)⟩

/-- C4 counterexample.  The branch test at source line 288 is substring
containment of `/`, not a prefix test: the annotation text `a/b` does not
begin with `/`, yet consuming it leaves `currentKey` unchanged at `C` and
sets `currentTonicization` to `/b` (the text with its first character
dropped), contradicting the claim that any text not beginning with `/` sets
the key and clears the tonicization. -/
theorem chfy_key_branch_counterexample :
    (chfyStep [⟨1, 1, ['a', '/', 'b']⟩] false (fun _ _ => ['I'])
        (fun t k => .ok (t ++ k)) ⟨0, ['C'], none, none⟩ ⟨1, 1, 0⟩).map
        (fun r => (r.1.currentIndex, r.1.currentKey, r.1.currentTonicization))
      = .ok (1, ['C'], some ['/', 'b']) ∧
      (['C'] : List Char) ≠ ['a', '/', 'b'] ∧
      (some ['/', 'b'] : Option (List Char)) ≠ none :=
  ⟨rfl, by decide, by decide⟩

/-- C4 (amended): whenever the consumed annotation's text contains no `/`
at all, the step sets `currentKey` to that text and clears
`currentTonicization` to `None`, regardless of the
`tonicizationsRemainInEffect` flag (the flag is universally quantified
here); the cursor advances by one and the text is remembered as
`stringInQuestion`. -/
theorem chfy_key_change_clears_tonicization (keyData : List Annot)
    (flag : Bool) (oracle : RnOracle) (lk : LocalKeyFn) (st : MachState)
    (ch : ChordEv) (a : Annot)
    (hget : keyData.get? st.currentIndex = some a)
    (hm : ch.measureNumber = a.measure) (hb : ch.beat = a.beat)
    (hslash : a.text.contains '/' = false) :
    ∃ e, chfyStep keyData flag oracle lk st ch
      = .ok (⟨st.currentIndex + 1, a.text, none, some a.text⟩, e) := by
  have hidx : (resetTonicization flag st).currentIndex = st.currentIndex :=
    resetTonicization_currentIndex flag st
  have hcons : chfyConsume keyData (resetTonicization flag st) ch
      = ⟨st.currentIndex + 1, a.text, none, some a.text⟩ := by
    unfold chfyConsume
    rw [hidx, hget]
    dsimp only
    rw [if_pos ⟨hm, hb⟩, if_neg (by rw [hslash]; exact Bool.false_ne_true)]
  unfold chfyStep
  rw [hcons]
  exact ⟨_, rfl⟩

/-- Witness for `chfy_key_change_clears_tonicization`: with the persistence
flag set and an active tonicization in the state, consuming the slash-free
annotation text `G:` still installs it as the key and clears the
tonicization. -/
theorem chfy_key_change_witness :
    ∃ e, chfyStep [⟨1, 1, ['G', ':']⟩] true (fun _ _ => ['I'])
        (fun t k => .ok (t ++ k)) ⟨0, ['C'], some ['x'], none⟩ ⟨1, 1, 0⟩
      = .ok (⟨1, ['G', ':'], none, some ['G', ':']⟩, e) :=
  chfy_key_change_clears_tonicization [⟨1, 1, ['G', ':']⟩] true
    (fun _ _ => ['I']) (fun t k => .ok (t ++ k)) ⟨0, ['C'], some ['x'], none⟩
    ⟨1, 1, 0⟩ ⟨1, 1, ['G', ':']⟩ rfl rfl rfl rfl
